import Mathlib

/-!
Verification of the i18n table converter (`src/i18n_converter.py`).

The development shallowly embeds the converter's core: language-code
resolution from column headers, fallback-column selection, duplicate-key
validation, per-language item building, and the three format emitters
(Android `strings.xml`, iOS `Localizable.strings`, PC `.ini`).  Python
strings are Lean `String`s; single-character `str.replace` chains are
modelled character by character; `pandas` cells are `Cell` (a string or
`NaN`); a `DataFrame` is a `DF` (column labels plus rows of cells); file
writes are `Write` records (path components plus content) collected in
order instead of performed.
-/

/-- Python `str.strip()` on a list of characters: drop leading and trailing
whitespace. -/
def stripChars (cs : List Char) : List Char :=
  ((cs.dropWhile Char.isWhitespace).reverse.dropWhile Char.isWhitespace).reverse

/-- Python `str.strip()`. -/
def pyStrip (s : String) : String :=
  String.mk (stripChars s.data)

/-- Python `str.lower()` (ASCII case folding, which covers the language
codes involved). -/
def pyLower (s : String) : String :=
  String.mk (s.data.map Char.toLower)

/-- Python `str.replace(old, new)` for a single-character pattern `c`:
every occurrence of `c` is replaced by `rep`; inserted text is not
rescanned. -/
def replaceChar (c : Char) (rep : List Char) : List Char → List Char
  | [] => []
  | d :: rest => if d = c then rep ++ replaceChar c rep rest else d :: replaceChar c rep rest

/-- Python `sep.join(parts)`. -/
def joinSep (sep : String) : List String → String
  | [] => ""
  | [x] => x
  | x :: y :: rest => x ++ sep ++ joinSep sep (y :: rest)

/-- Python `s.split(",")` on the character level: split at every comma,
keeping empty pieces. -/
def splitCommaChars : List Char → List (List Char)
  | [] => [[]]
  | c :: rest =>
    if c = ',' then [] :: splitCommaChars rest
    else
      match splitCommaChars rest with
      | [] => [[c]]
      | g :: gs => (c :: g) :: gs

/-- Python `s.split(",")`. -/
def splitComma (s : String) : List String :=
  (splitCommaChars s.data).map String.mk

/-- A `pandas` column header as `i18n_converter.py` sees it: either an
actual Python `str`, or some other object carrying only its `str(...)`
representation (`parse_language_code` branches on `isinstance(..., str)`). -/
inductive PyObj where
  | str (s : String)
  | nonStr (rep : String)
deriving DecidableEq, Repr

/-- Python `str(x)` on a `PyObj`. -/
def pyObjStr : PyObj → String
  | .str s => s
  | .nonStr rep => rep

/-- Part of the semantics of `re.search(r"\(([^)]+)\)", s)` at a fixed start:
the characters before the first `)` in `cs`, or `none` when `cs` has no
`)` at all (the character class `[^)]` matches any character except `)`,
so the group can only extend to the first closing parenthesis). -/
def spanToClose : List Char → Option (List Char)
  | [] => none
  | c :: rest => if c = ')' then some [] else (spanToClose rest).map (fun g => c :: g)

/-- Semantics of `re.search(r"\(([^)]+)\)", s)`: scan left to right for the
first `(` that is followed by a nonempty run of non-`)` characters and then
a `)`; return that run (the regex group). -/
def findGroup : List Char → Option (List Char)
  | [] => none
  | c :: rest =>
    if c = '(' then
      match spanToClose rest with
      | some (d :: ds) => some (d :: ds)
      | _ => findGroup rest
    else findGroup rest

/-- Lean translation of `parse_language_code` (src/i18n_converter.py:47):
a non-`str` header is coerced with `str(...)` and stripped; a `str` header
yields the stripped contents of the first regex group of
`\(([^)]+)\)` when one matches, and the stripped header otherwise. -/
def parse_language_code (column_name : PyObj) : String :=
  match column_name with
  | .nonStr rep => pyStrip rep
  | .str s =>
    match findGroup s.data with
    | some g => pyStrip (String.mk g)
    | none => pyStrip s

/-- The source's `english_codes` set (src/i18n_converter.py:97), including
the `es` entry present in the code. -/
def english_codes : List String :=
  ["en", "en-us", "en_us", "english", "es"]

/-- Lean translation of `determine_fallback_column` (src/i18n_converter.py:79):
scan the ordered column-to-code mapping for the first column whose lowered
code is in `english_codes`; otherwise the first column; `none` models the
`ValueError` raised on an empty mapping. -/
def determine_fallback_column (languages : List (String × String)) : Option String :=
  match languages.find? (fun p => english_codes.contains (pyLower p.2)) with
  | some p => some p.1
  | none => languages.head?.map Prod.fst

/-- The `&amp;` entity as characters. -/
def ampEntity : List Char := ['&', 'a', 'm', 'p', ';']

/-- The `&lt;` entity as characters. -/
def ltEntity : List Char := ['&', 'l', 't', ';']

/-- The `&gt;` entity as characters. -/
def gtEntity : List Char := ['&', 'g', 't', ';']

/-- The `&quot;` entity as characters. -/
def quotEntity : List Char := ['&', 'q', 'u', 'o', 't', ';']

/-- Lean translation of `escape_android_text` (src/i18n_converter.py:108):
the `replacements` dict is applied in insertion order — `&` to `&amp;`,
`<` to `&lt;`, `>` to `&gt;`, `"` to itself (the Python literal `'\"'` is
just a double quote) — and then `'` becomes `\'`. -/
def escape_android_text (text : String) : String :=
  String.mk
    (replaceChar '\'' ['\\', '\'']
      (replaceChar '"' ['"']
        (replaceChar '>' gtEntity
          (replaceChar '<' ltEntity
            (replaceChar '&' ampEntity text.data)))))

/-- Text-node escaping performed by `xml.dom.minidom` when
`write_android_resources` serializes the document with `toprettyxml`
(CPython `Lib/xml/dom/minidom.py`, `_write_data`): replace `&` by `&amp;`,
then `<` by `&lt;`, then `"` by `&quot;`, then `>` by `&gt;`. -/
def minidomWriteData (cs : List Char) : List Char :=
  replaceChar '>' gtEntity
    (replaceChar '"' quotEntity
      (replaceChar '<' ltEntity
        (replaceChar '&' ampEntity cs)))

/-- Escaping applied to keys and values by `write_ios_resources`
(src/i18n_converter.py:200): first `"` becomes `\"`, then `\` becomes
`\\` — in that order, exactly as the two chained `.replace` calls run. -/
def iosEscape (s : String) : String :=
  String.mk (replaceChar '\\' ['\\', '\\'] (replaceChar '"' ['\\', '"'] s.data))

example : escape_android_text "a&b" = "a&amp;b" := by decide
example : escape_android_text "a'b" = "a\\'b" := by decide
example : String.mk (minidomWriteData (escape_android_text "a&b").data) = "a&amp;amp;b" := by decide
example : iosEscape "a\"b" = "a\\\\\"b" := by decide
example : parse_language_code (.str "English (en)") = "en" := by decide
example : parse_language_code (.str "中文(zh-CN)") = "zh-CN" := by decide
example : parse_language_code (.str "fr") = "fr" := by decide
example : determine_fallback_column [("French (fr)", "fr"), ("English (en)", "en")] = some "English (en)" := by decide
example : splitComma "a,,b" = ["a", "", "b"] := by decide
example : pyStrip "  x y " = "x y" := by decide

/-- One line of a `Localizable.strings` file, as `write_ios_resources`
(src/i18n_converter.py:202) formats it. -/
def iosLine (key value : String) : String :=
  "\"" ++ iosEscape key ++ "\" = \"" ++ iosEscape value ++ "\";\n"

/-- The whole `Localizable.strings` content: the loop of
`write_ios_resources` writes one line per item, in order. -/
def iosContent : List (String × String) → String
  | [] => ""
  | (k, v) :: rest => iosLine k v ++ iosContent rest

/-- One line of a PC `.ini` file, as `write_pc_resources`
(src/i18n_converter.py:228) formats it (`value or ''` is `value` itself,
since every value is already a string by the time the emitters run). -/
def pcLine (key value : String) : String :=
  key ++ " = \"" ++ value ++ "\";\n"

/-- The whole `.ini` content: one line per item, in order. -/
def pcContent : List (String × String) → String
  | [] => ""
  | (k, v) :: rest => pcLine k v ++ pcContent rest

/-- One pretty-printed `<string>` element of `strings.xml`, as emitted by
`write_android_resources` (src/i18n_converter.py:163): the element text is
`escape_android_text value`; `ElementTree.tostring` followed by
`minidom.parseString` and `toprettyxml(indent='    ')` indents the element
by four spaces, writes an element whose text is empty (Python-falsy) in
self-closing form, and re-escapes both the attribute and the text through
minidom's `_write_data`. -/
def androidElem (key value : String) : String :=
  "    <string name=\"" ++ String.mk (minidomWriteData key.data) ++ "\"" ++
    (if escape_android_text value = "" then "/>\n"
     else
       ">" ++ String.mk (minidomWriteData (escape_android_text value).data) ++
         "</string>\n")

/-- The sequence of `<string>` elements, one per item, in order. -/
def androidBody : List (String × String) → String
  | [] => ""
  | (k, v) :: rest => androidElem k v ++ androidBody rest

/-- The XML declaration `toprettyxml(encoding='utf-8')` puts first. -/
def xmlHeader : String :=
  "<?xml version=\"1.0\" encoding=\"utf-8\"?>\n"

/-- The whole `strings.xml` content produced by `write_android_resources`
(an empty item list serializes `<resources>` itself in self-closing form). -/
def androidContent (items : List (String × String)) : String :=
  if items = [] then xmlHeader ++ "<resources/>\n"
  else xmlHeader ++ "<resources>\n" ++ androidBody items ++ "</resources>\n"

/-- A file write performed by an emitter: the path as the components that
`os.path.join` receives, plus the full content written. -/
structure Write where
  path : List String
  content : String
deriving DecidableEq, Repr

/-- The output path of the emitter for `platform` (one of `android`,
`ios`, `pc`): `values-<code>/strings.xml`, `<code>.lproj/Localizable.strings`
or `<code>.ini` under the output root. -/
def pathFor (platform root code : String) : List String :=
  if platform = "android" then [root, "values-" ++ code, "strings.xml"]
  else if platform = "ios" then [root, code ++ ".lproj", "Localizable.strings"]
  else [root, code ++ ".ini"]

/-- The file content produced by the emitter for `platform` on `items`. -/
def contentFor (platform : String) (items : List (String × String)) : String :=
  if platform = "android" then androidContent items
  else if platform = "ios" then iosContent items
  else pcContent items

/-- The writes one language column triggers in `convert_table`
(src/i18n_converter.py:293): `write_android_resources`, then
`write_ios_resources`, then `write_pc_resources`, each only when its
platform was requested. -/
def platformWrites (platforms : List String) (code : String)
    (items : List (String × String)) (root : String) : List Write :=
  (if "android" ∈ platforms then [⟨pathFor "android" root code, contentFor "android" items⟩] else []) ++
    (if "ios" ∈ platforms then [⟨pathFor "ios" root code, contentFor "ios" items⟩] else []) ++
      (if "pc" ∈ platforms then [⟨pathFor "pc" root code, contentFor "pc" items⟩] else [])

/-- A `pandas` cell as the converter sees it after `read_excel(dtype=str)`:
a string, or a missing value (`NaN`). -/
inductive Cell where
  | s (v : String)
  | nan
deriving DecidableEq, Repr

/-- Python `str(...)` on a cell: `str` of a `NaN` float is `"nan"`, which
is what `df['key'].astype(str)` produces for missing keys. -/
def cellPyStr : Cell → String
  | .s v => v
  | .nan => "nan"

/-- The string carried by a cell; after normalization every cell is a
string, so the `NaN` case is unreachable there. -/
def Cell.asStr : Cell → String
  | .s v => v
  | .nan => ""

/-- A `DataFrame`: ordered column labels and rows of cells (one cell per
column, in column order). -/
structure DF where
  cols : List String
  rows : List (List Cell)
deriving DecidableEq, Repr

/-- Label-based cell access (`row[col]` on an `iterrows` row): the cell at
the index of the first column with that label. -/
def DF.cellByName (df : DF) (row : List Cell) (name : String) : Cell :=
  match df.cols.findIdx? (fun c => c = name) with
  | some i => row.getD i .nan
  | none => .nan

/-- The effect of `df['key'] = df['key'].astype(str)` on one row: the key
cell (at index `ki`) is coerced with `str(...)`. -/
def astypeKeyRow (ki : Nat) (row : List Cell) : List Cell :=
  row.set ki (.s (cellPyStr (row.getD ki .nan)))

/-- The effect of `df.fillna('')` on one cell. -/
def cellFill : Cell → Cell
  | .nan => .s ""
  | .s v => .s v

/-- The effect of `df['key'] = df['key'].astype(str)` on the frame. -/
def astypeStep (df : DF) (ki : Nat) : DF :=
  ⟨df.cols, df.rows.map (astypeKeyRow ki)⟩

/-- The effect of `df.fillna('', inplace=True)` on the frame. -/
def fillnaStep (df : DF) : DF :=
  ⟨df.cols, df.rows.map (fun row => row.map cellFill)⟩

/-- The normalization `convert_table` performs on its private copy
(src/i18n_converter.py:259): key coercion, then `NaN` replacement. -/
def normalizeDF (df : DF) (ki : Nat) : DF :=
  fillnaStep (astypeStep df ki)

/-- The key strings of a frame: the (post-normalization) cell at the key
column index of each row. -/
def keyStrings (df : DF) (ki : Nat) : List String :=
  df.rows.map (fun row => Cell.asStr (row.getD ki .nan))

/-- Semantics of `df['key'][df['key'].duplicated()]` (src/i18n_converter.py:264):
the key occurrences that have an identical earlier occurrence, in row
order; `seen` holds the values already passed. -/
def dupFlaggedAux (seen : List String) : List String → List String
  | [] => []
  | k :: rest => if k ∈ seen then k :: dupFlaggedAux seen rest else dupFlaggedAux (k :: seen) rest

/-- The duplicated key occurrences of a key list (all but the first of
each repeated value). -/
def dupFlagged (keys : List String) : List String :=
  dupFlaggedAux [] keys

/-- Semantics of `pandas` `.unique()`: deduplicate, keeping each value's
first occurrence in order. -/
def uniqueFirstAux (seen : List String) : List String → List String
  | [] => []
  | k :: rest => if k ∈ seen then uniqueFirstAux seen rest else k :: uniqueFirstAux (k :: seen) rest

/-- Deduplication keeping first occurrences. -/
def uniqueFirst (keys : List String) : List String :=
  uniqueFirstAux [] keys

/-- Lexicographic comparison of character lists by code point, the order
Python's `sorted` uses on strings. -/
def strLeChars : List Char → List Char → Bool
  | [], _ => true
  | _ :: _, [] => false
  | a :: as, b :: bs =>
    if a.toNat < b.toNat then true
    else if a.toNat = b.toNat then strLeChars as bs
    else false

/-- Python string comparison `a <= b`. -/
def pyStrLe (a b : String) : Bool :=
  strLeChars a.data b.data

/-- Insertion into a list sorted by `pyStrLe`. -/
def insertSorted (x : String) : List String → List String
  | [] => [x]
  | y :: ys => if pyStrLe x y then x :: y :: ys else y :: insertSorted x ys

/-- Semantics of Python `sorted` on strings: an ascending sort (modelled
as insertion sort; `sorted` is characterized up to order and multiplicity,
which the theorems use). -/
def sortStrings : List String → List String
  | [] => []
  | x :: xs => insertSorted x (sortStrings xs)

/-- The message of the `Duplicate keys found` error
(src/i18n_converter.py:266): the flagged occurrences, deduplicated, sorted
and comma-joined. -/
def dupMessage (keys : List String) : String :=
  "Duplicate keys found: " ++ joinSep ", " (sortStrings (uniqueFirst (dupFlagged keys)))

/-- A raised `ValueError`, carrying its message. -/
inductive PyErr where
  | valueError (msg : String)
deriving DecidableEq, Repr

/-- The ordered column-to-language-code mapping `convert_table` builds
(src/i18n_converter.py:270): every column except `key`, each paired with
its parsed code (a `dict` keyed by the column label, iterated in insertion
order). -/
def languageColumns (cols : List String) : List (String × String) :=
  (cols.filter (fun c => c ≠ "key")).map (fun c => (c, parse_language_code (.str c)))

/-- The item one row contributes for one language column
(src/i18n_converter.py:286): the key, and the raw cell when it is nonblank
after stripping, otherwise the fallback column's raw cell. -/
def rowItem (df : DF) (ki : Nat) (col fallback_col : String) (row : List Cell) :
    String × String :=
  (Cell.asStr (row.getD ki .nan),
    if pyStrip (Cell.asStr (df.cellByName row col)) ≠ "" then Cell.asStr (df.cellByName row col)
    else Cell.asStr (df.cellByName row fallback_col))

/-- The ordered item list for one language column: one item per row, in
row order. -/
def buildItems (df : DF) (ki : Nat) (col fallback_col : String) : List (String × String) :=
  df.rows.map (rowItem df ki col fallback_col)

/-- The part of `convert_table` that runs on the normalized copy
(src/i18n_converter.py:263 onward): duplicate-key validation, language
column discovery, fallback selection, and emission.  The result is the
ordered list of file writes performed, plus the `ValueError` raised, if
any (every error of this function is raised before any write happens). -/
def convert_table_core (ndf : DF) (ki : Nat) (output_root : String)
    (platforms : List String) : List Write × Option PyErr :=
  let keys := keyStrings ndf ki
  if dupFlagged keys ≠ [] then
    ([], some (.valueError (dupMessage keys)))
  else
    let language_columns := languageColumns ndf.cols
    if language_columns = [] then
      ([], some (.valueError "No language columns found in the spreadsheet"))
    else
      match determine_fallback_column language_columns with
      | none => ([], some (.valueError "No language columns found to select a fallback from"))
      | some fallback_col =>
        (language_columns.flatMap
          (fun p => platformWrites platforms p.2 (buildItems ndf ki p.1 fallback_col) output_root),
         none)

/-- Lean translation of `convert_table` (src/i18n_converter.py:241): check
for the `key` column, normalize a copy of the frame, then validate and
emit. -/
def convert_table (df : DF) (output_root : String) (platforms : List String) :
    List Write × Option PyErr :=
  match df.cols.findIdx? (fun c => c = "key") with
  | none => ([], some (.valueError "Input spreadsheet must contain a 'key' column"))
  | some ki => convert_table_core (normalizeDF df ki) ki output_root platforms

/-- The empty frame, used as an out-of-range default. -/
def dfEmpty : DF := ⟨[], []⟩

/-- Heap-level rendering of `convert_table`: the heap `σ` holds the
`DataFrame` objects alive, the caller's argument is the reference (index)
`r`.  `df = df.copy()` (src/i18n_converter.py:259) allocates a fresh
object at the end of the heap; the two subsequent mutating statements
(`df['key'] = df['key'].astype(str)` and `df.fillna('', inplace=True)`)
update that fresh object in place.  Returns the call's result together
with the final heap. -/
def convert_table_heap (σ : List DF) (r : Nat) (output_root : String)
    (platforms : List String) : (List Write × Option PyErr) × List DF :=
  let df := σ.getD r dfEmpty
  match df.cols.findIdx? (fun c => c = "key") with
  | none => (([], some (.valueError "Input spreadsheet must contain a 'key' column")), σ)
  | some ki =>
    let rl := σ.length
    let σ1 := σ ++ [df]
    let σ2 := σ1.set rl (astypeStep (σ1.getD rl dfEmpty) ki)
    let σ3 := σ2.set rl (fillnaStep (σ2.getD rl dfEmpty))
    ((convert_table_core (σ3.getD rl dfEmpty) ki output_root platforms), σ3)

/-- The content a path holds once a sequence of writes has been performed
in order: the content of the last write to that path (each write replaces
the file wholly), or `none` when no write touched it. -/
def fsAfter (ws : List Write) (p : List String) : Option String :=
  (ws.reverse.find? (fun w => w.path = p)).map Write.content

/-- An observable side effect of `main` other than emission. -/
inductive Effect where
  | clearOutputDir (root : String)
  | readInput (path : String)
  | emitted (w : Write)
deriving DecidableEq, Repr

/-- The outcome of a `main` run: the side effects in order, and the error
message of the failure, when the process exits nonzero. -/
structure RunResult where
  effects : List Effect
  errorMsg : Option String
deriving DecidableEq, Repr

/-- The platform list `main` builds (src/i18n_converter.py:310): split the
argument at commas, keep the pieces that are nonblank after stripping,
strip and lower each. -/
def platformList (arg : String) : List String :=
  ((splitComma arg).filter (fun p => pyStrip p ≠ "")).map (fun p => pyLower (pyStrip p))

/-- The `allowed` set of `main` (src/i18n_converter.py:311). -/
def allowedPlatforms : List String := ["android", "ios", "pc"]

/-- Lean translation of `main` (src/i18n_converter.py:301) after argument
parsing: validate the platform list (exiting before any other step when an
unknown platform was requested), clear the output root, read the input
table (`readResult` is `none` when `pd.read_excel` fails), and convert.
Effects are recorded in the order the source performs them. -/
def mainRun (input_path output_root platformsArg : String) (readResult : Option DF) :
    RunResult :=
  let platform_list := platformList platformsArg
  let invalid := platform_list.filter (fun p => p ∉ allowedPlatforms)
  if invalid ≠ [] then
    ⟨[], some ("Unsupported platform(s): " ++ joinSep ", " invalid)⟩
  else
    match readResult with
    | none =>
      ⟨[.clearOutputDir output_root],
       some ("Failed to read input Excel file '" ++ input_path ++ "'")⟩
    | some df =>
      match convert_table df output_root platform_list with
      | (ws, some (.valueError msg)) =>
        ⟨[.clearOutputDir output_root, .readInput input_path] ++ ws.map .emitted,
         some ("Error: " ++ msg)⟩
      | (ws, none) =>
        ⟨[.clearOutputDir output_root, .readInput input_path] ++ ws.map .emitted, none⟩

/-- Escaping in the order the spec claims for the iOS emitter: backslash
doubled first, then the double quote. Stated from the claim's words, for
comparison with `iosEscape`, the order the code actually uses. -/
def iosEscapeClaimOrder (s : String) : String :=
  String.mk (replaceChar '"' ['\\', '"'] (replaceChar '\\' ['\\', '\\'] s.data))

/-- C1: the claim says iOS escaping replaces backslashes first and quotes
second, so an input double quote becomes exactly `\"`.  The code
(src/i18n_converter.py:200) chains the replacements in the opposite order:
the quote is rewritten to `\"` first and the inserted backslash is then
doubled, so an input `"` reaches the file as `\\"`.  This theorem
evaluates the code's escaper at the failing input and contrasts it with
the claimed order. -/
theorem C1_ios_escape_order_bug :
    iosEscape "\"" = "\\\\\"" ∧
    iosEscapeClaimOrder "\"" = "\\\"" ∧
    iosEscape "\"" ≠ iosEscapeClaimOrder "\"" ∧
    iosLine "k" "\"" = "\"k\" = \"\\\\\"\";\n" := by
  refine ⟨by decide, by decide, by decide, by decide⟩

/-- C2: the claim says the value text in the emitted `strings.xml` is the
input with `&` turned into `&amp;` (first), `<` into `&lt;`, `>` into
`&gt;`, quotes passed through, and `'` into `\'`.  `escape_android_text`
does transform the value exactly that way, but `write_android_resources`
assigns the result to `elem.text`, and the `ElementTree`/`minidom`
serialization entity-escapes the text again on the way to the file: an
input `&` is stored in the file as `&amp;amp;`, `<` as `&amp;lt;`, and a
double quote as `&quot;`.  Only the apostrophe clause survives in the
file bytes. -/
theorem C2_android_value_double_escaped :
    escape_android_text "&" = "&amp;" ∧
    androidElem "k" "&" = "    <string name=\"k\">&amp;amp;</string>\n" ∧
    androidElem "k" "&" ≠ "    <string name=\"k\">&amp;</string>\n" ∧
    androidElem "k" "<" = "    <string name=\"k\">&amp;lt;</string>\n" ∧
    androidElem "k" "\"" = "    <string name=\"k\">&quot;</string>\n" ∧
    androidElem "k" "'" = "    <string name=\"k\">\\'</string>\n" := by
  refine ⟨by decide, by decide, by decide, by decide, by decide, by decide⟩

/-- Ad-hoc first-match lemma: `find?` returns the element at the first
index satisfying the predicate. -/
theorem find?_of_first_index {α : Type} (p : α → Bool) (l : List α) (i : Nat)
    (hi : i < l.length) (hp : p (l.get ⟨i, hi⟩) = true)
    (hmin : ∀ j (hj : j < l.length), j < i → p (l.get ⟨j, hj⟩) = false) :
    l.find? p = some (l.get ⟨i, hi⟩) := by
  induction l generalizing i with
  | nil => exact absurd hi (by simp)
  | cons a as ih =>
    cases i with
    | zero => exact List.find?_cons_of_pos _ hp
    | succ i' =>
      have ha : p a = false := hmin 0 (by simp) (Nat.succ_pos i')
      have hi' : i' < as.length := Nat.lt_of_succ_lt_succ hi
      have hrec := ih i' hi' hp (fun j hj hji =>
        hmin (j + 1) (Nat.succ_lt_succ hj) (Nat.succ_lt_succ hji))
      rw [List.find?_cons_of_neg _ (by simp [ha])]
      exact hrec

/-- Ad-hoc all-false lemma: `find?` misses when no element satisfies the
predicate. -/
theorem find?_none_of_all_false {α : Type} (p : α → Bool) (l : List α)
    (h : ∀ j (hj : j < l.length), p (l.get ⟨j, hj⟩) = false) :
    l.find? p = none := by
  rw [List.find?_eq_none]
  intro x hx
  obtain ⟨⟨j, hj⟩, rfl⟩ := List.mem_iff_get.mp hx
  simpa using h j hj

/-- C3: for a non-empty ordered column-to-code mapping,
`determine_fallback_column` returns the first column, in original order,
whose code matches an entry of `english_codes` case-insensitively (the
recognized aliases `en`, `en-us`, `en_us`, `english` plus the explicitly
listed `es`), and the first column overall when no code matches. -/
theorem C3_fallback_first_english_alias (langs : List (String × String)) :
    (∀ i (hi : i < langs.length),
        english_codes.contains (pyLower (langs.get ⟨i, hi⟩).2) = true →
        (∀ j (hj : j < langs.length), j < i →
            english_codes.contains (pyLower (langs.get ⟨j, hj⟩).2) = false) →
        determine_fallback_column langs = some (langs.get ⟨i, hi⟩).1) ∧
    (langs ≠ [] →
        (∀ j (hj : j < langs.length),
            english_codes.contains (pyLower (langs.get ⟨j, hj⟩).2) = false) →
        ∃ h0 : 0 < langs.length,
          determine_fallback_column langs = some (langs.get ⟨0, h0⟩).1) := by
  constructor
  · intro i hi hp hmin
    have hf := find?_of_first_index (fun p => english_codes.contains (pyLower p.2)) langs i hi hp hmin
    unfold determine_fallback_column
    rw [hf]
  · intro hne hall
    have h0 : 0 < langs.length := List.length_pos.mpr hne
    refine ⟨h0, ?_⟩
    have hf := find?_none_of_all_false (fun p => english_codes.contains (pyLower p.2)) langs hall
    unfold determine_fallback_column
    rw [hf]
    cases langs with
    | nil => exact absurd rfl hne
    | cons a rest => rfl

/-- Witness for C3 at a concrete mapping: the English column is second
and is chosen over the French one. -/
theorem C3_fallback_witness :
    determine_fallback_column [("French (fr)", "fr"), ("English (en)", "en")] =
      some "English (en)" := by
  have h := (C3_fallback_first_english_alias [("French (fr)", "fr"), ("English (en)", "en")]).1
    1 (by decide) (by decide) (by decide)
  simpa using h

/-- Membership in the flagged-duplicates list: an occurrence is flagged
exactly when its value was already seen, or occurs at least twice in the
remaining list. -/
theorem mem_dupFlaggedAux (k : String) (l : List String) :
    ∀ seen : List String, k ∈ dupFlaggedAux seen l ↔ (k ∈ seen ∧ k ∈ l) ∨ 2 ≤ l.count k := by
  induction l with
  | nil => intro seen; simp [dupFlaggedAux]
  | cons a as ih =>
    intro seen
    have hc1 : 0 < as.count k ↔ k ∈ as := List.count_pos_iff
    by_cases hk : k = a
    · subst hk
      have hcnt : (k :: as).count k = as.count k + 1 := by simp [List.count_cons]
      by_cases ha : k ∈ seen
      · rw [dupFlaggedAux, if_pos ha]
        constructor
        · intro _
          exact Or.inl ⟨ha, List.mem_cons_self _ _⟩
        · intro _
          exact List.mem_cons_self _ _
      · rw [dupFlaggedAux, if_neg ha, ih (k :: seen), hcnt]
        constructor
        · rintro (⟨_, hmem⟩ | hcc)
          · have := hc1.mpr hmem
            right; omega
          · right; omega
        · rintro (⟨hs, _⟩ | hcc)
          · exact absurd hs ha
          · exact Or.inl ⟨List.mem_cons_self _ _, hc1.mp (by omega)⟩
    · have hak : ¬ a = k := fun h => hk h.symm
      have hcnt : (a :: as).count k = as.count k := by
        simp [List.count_cons, hak]
      by_cases ha : a ∈ seen
      · rw [dupFlaggedAux, if_pos ha, List.mem_cons]
        rw [ih seen, hcnt]
        simp [List.mem_cons, hk]
      · rw [dupFlaggedAux, if_neg ha, ih (a :: seen), hcnt]
        simp [List.mem_cons, hk]

/-- Membership after `.unique()`: a value survives when it occurs and was
not yet seen. -/
theorem mem_uniqueFirstAux (k : String) (l : List String) :
    ∀ seen : List String, k ∈ uniqueFirstAux seen l ↔ k ∈ l ∧ k ∉ seen := by
  induction l with
  | nil => intro seen; simp [uniqueFirstAux]
  | cons a as ih =>
    intro seen
    by_cases ha : a ∈ seen
    · rw [uniqueFirstAux, if_pos ha, ih seen]
      constructor
      · rintro ⟨h1, h2⟩
        exact ⟨List.mem_cons_of_mem a h1, h2⟩
      · rintro ⟨h1, h2⟩
        rcases List.mem_cons.mp h1 with rfl | h1'
        · exact absurd ha h2
        · exact ⟨h1', h2⟩
    · rw [uniqueFirstAux, if_neg ha, List.mem_cons]
      by_cases hk : k = a
      · subst hk
        simp [ha]
      · rw [ih (a :: seen)]
        simp [List.mem_cons, hk]

/-- The `.unique()` result has no duplicates. -/
theorem nodup_uniqueFirstAux (l : List String) :
    ∀ seen : List String, (uniqueFirstAux seen l).Nodup := by
  induction l with
  | nil => intro seen; simp [uniqueFirstAux]
  | cons a as ih =>
    intro seen
    by_cases ha : a ∈ seen
    · rw [uniqueFirstAux, if_pos ha]
      exact ih seen
    · rw [uniqueFirstAux, if_neg ha]
      refine List.nodup_cons.mpr ⟨?_, ih (a :: seen)⟩
      intro hmem
      have := (mem_uniqueFirstAux a as (a :: seen)).mp hmem
      exact this.2 (List.mem_cons_self a seen)

/-- Inserting into a list permutes consing onto it. -/
theorem perm_insertSorted (x : String) (l : List String) :
    (insertSorted x l).Perm (x :: l) := by
  induction l with
  | nil => exact List.Perm.refl _
  | cons y ys ih =>
    rw [insertSorted]
    by_cases h : pyStrLe x y = true
    · rw [if_pos h]
    · rw [if_neg h]
      exact (ih.cons y).trans (List.Perm.swap x y ys)

/-- Sorting permutes the list. -/
theorem perm_sortStrings (l : List String) : (sortStrings l).Perm l := by
  induction l with
  | nil => exact List.Perm.refl _
  | cons x xs ih =>
    rw [sortStrings]
    exact (perm_insertSorted x (sortStrings xs)).trans (ih.cons x)

/-- The string comparison is total. -/
theorem strLeChars_total (as : List Char) :
    ∀ bs : List Char, strLeChars as bs = true ∨ strLeChars bs as = true := by
  induction as with
  | nil => intro bs; left; rfl
  | cons a as ih =>
    intro bs
    cases bs with
    | nil => right; rfl
    | cons b bs =>
      simp only [strLeChars]
      rcases Nat.lt_trichotomy a.toNat b.toNat with h | h | h
      · left; rw [if_pos h]
      · rcases ih bs with h1 | h1
        · left
          rw [if_neg (by omega), if_pos h]
          exact h1
        · right
          rw [if_neg (by omega), if_pos h.symm]
          exact h1
      · right; rw [if_pos h]

/-- The string comparison is transitive. -/
theorem strLeChars_trans (as : List Char) :
    ∀ bs cs : List Char, strLeChars as bs = true → strLeChars bs cs = true →
      strLeChars as cs = true := by
  induction as with
  | nil => intro bs cs _ _; rfl
  | cons a as ih =>
    intro bs cs h1 h2
    cases bs with
    | nil => exact absurd h1 (by simp [strLeChars])
    | cons b bs =>
      cases cs with
      | nil => exact absurd h2 (by simp [strLeChars])
      | cons c cs =>
        simp only [strLeChars] at h1 h2 ⊢
        by_cases hab : a.toNat < b.toNat
        · by_cases hbc : b.toNat < c.toNat
          · rw [if_pos (by omega)]
          · by_cases hbc2 : b.toNat = c.toNat
            · rw [if_pos (by omega)]
            · rw [if_neg hbc, if_neg hbc2] at h2
              exact absurd h2 (by simp)
        · by_cases hab2 : a.toNat = b.toNat
          · rw [if_neg hab, if_pos hab2] at h1
            by_cases hbc : b.toNat < c.toNat
            · rw [if_pos (by omega)]
            · by_cases hbc2 : b.toNat = c.toNat
              · rw [if_neg hbc, if_pos hbc2] at h2
                rw [if_neg (by omega), if_pos (by omega)]
                exact ih bs cs h1 h2
              · rw [if_neg hbc, if_neg hbc2] at h2
                exact absurd h2 (by simp)
          · rw [if_neg hab, if_neg hab2] at h1
            exact absurd h1 (by simp)

/-- Totality, on strings. -/
theorem pyStrLe_total (a b : String) : pyStrLe a b = true ∨ pyStrLe b a = true :=
  strLeChars_total a.data b.data

/-- Transitivity, on strings. -/
theorem pyStrLe_trans {a b c : String} (h1 : pyStrLe a b = true) (h2 : pyStrLe b c = true) :
    pyStrLe a c = true :=
  strLeChars_trans a.data b.data c.data h1 h2

/-- Insertion preserves sortedness. -/
theorem sorted_insertSorted (x : String) (l : List String)
    (hl : List.Sorted (fun a b => pyStrLe a b = true) l) :
    List.Sorted (fun a b => pyStrLe a b = true) (insertSorted x l) := by
  induction l with
  | nil => simp [insertSorted]
  | cons y ys ih =>
    rw [insertSorted]
    rcases List.sorted_cons.mp hl with ⟨hy, hys⟩
    by_cases h : pyStrLe x y = true
    · rw [if_pos h]
      refine List.sorted_cons.mpr ⟨?_, hl⟩
      intro b hb
      rcases List.mem_cons.mp hb with rfl | hb'
      · exact h
      · exact pyStrLe_trans h (hy b hb')
    · rw [if_neg h]
      refine List.sorted_cons.mpr ⟨?_, ih hys⟩
      intro b hb
      have hb2 := (perm_insertSorted x ys).mem_iff.mp hb
      rcases List.mem_cons.mp hb2 with rfl | hb'
      · rcases pyStrLe_total b y with h1 | h1
        · exact absurd h1 h
        · exact h1
      · exact hy b hb'

/-- The modelled Python `sorted` sorts. -/
theorem sorted_sortStrings (l : List String) :
    List.Sorted (fun a b => pyStrLe a b = true) (sortStrings l) := by
  induction l with
  | nil => simp [sortStrings]
  | cons x xs ih =>
    rw [sortStrings]
    exact sorted_insertSorted x _ ih

/-- C4: a table whose coerced key column contains some value more than
once makes `convert_table` fail with the `Duplicate keys found` error,
whose message joins the sorted, deduplicated list of the offending keys
(exactly the key values occurring at least twice), and the write list is
empty: emission never starts. -/
theorem C4_duplicate_keys_abort (df : DF) (root : String) (platforms : List String)
    (ki : Nat) (hki : df.cols.findIdx? (fun c => c = "key") = some ki)
    (hdup : ∃ k, 2 ≤ (keyStrings (normalizeDF df ki) ki).count k) :
    ∃ offending : List String,
      convert_table df root platforms =
        ([], some (.valueError ("Duplicate keys found: " ++ joinSep ", " offending))) ∧
      List.Sorted (fun a b => pyStrLe a b = true) offending ∧
      offending.Nodup ∧
      (∀ k, k ∈ offending ↔ 2 ≤ (keyStrings (normalizeDF df ki) ki).count k) := by
  obtain ⟨k0, hk0⟩ := hdup
  have hmem0 : k0 ∈ dupFlagged (keyStrings (normalizeDF df ki) ki) := by
    rw [dupFlagged, mem_dupFlaggedAux]
    exact Or.inr hk0
  have hne : dupFlagged (keyStrings (normalizeDF df ki) ki) ≠ [] := by
    intro hnil
    rw [hnil] at hmem0
    exact absurd hmem0 (List.not_mem_nil k0)
  refine ⟨sortStrings (uniqueFirst (dupFlagged (keyStrings (normalizeDF df ki) ki))),
    ?_, sorted_sortStrings _, ?_, ?_⟩
  · unfold convert_table
    rw [hki]
    show convert_table_core (normalizeDF df ki) ki root platforms = _
    simp only [convert_table_core]
    rw [if_pos hne]
    rfl
  · exact (perm_sortStrings _).nodup_iff.mpr (nodup_uniqueFirstAux _ [])
  · intro k
    rw [(perm_sortStrings _).mem_iff, uniqueFirst, mem_uniqueFirstAux, dupFlagged,
      mem_dupFlaggedAux]
    simp

/-- A concrete table with duplicated keys (`a` and `b` each occur twice,
one key cell is missing and coerces to `"nan"`). -/
def dfDup : DF :=
  ⟨["key", "A (en)"],
   [[.s "b", .s "x"], [.s "a", .nan], [.s "b", .s "y"], [.s "a", .s "z"]]⟩

/-- Witness for C4 at `dfDup`: the duplicate-key error fires with an empty
write list. -/
theorem C4_duplicate_keys_witness :
    ∃ offending : List String,
      convert_table dfDup "res" ["ios"] =
        ([], some (.valueError ("Duplicate keys found: " ++ joinSep ", " offending))) ∧
      List.Sorted (fun a b => pyStrLe a b = true) offending ∧
      offending.Nodup ∧
      (∀ k, k ∈ offending ↔ 2 ≤ (keyStrings (normalizeDF dfDup 0) 0).count k) :=
  C4_duplicate_keys_abort dfDup "res" ["ios"] 0 (by decide) ⟨"a", by decide⟩

/-- C5: `buildItems` produces one item per row, in original row order; the
item's key is the row's key cell; its value is the row's raw cell in the
active column when that cell is nonblank after stripping, and the row's
raw fallback-column cell otherwise — also when that fallback cell is
itself empty. -/
theorem C5_item_values (df : DF) (ki : Nat) (col fallback_col : String) :
    (buildItems df ki col fallback_col).length = df.rows.length ∧
    ∀ i (hi : i < df.rows.length),
      (buildItems df ki col fallback_col).get? i =
        some ((df.rows.get ⟨i, hi⟩).getD ki Cell.nan |>.asStr,
          if pyStrip ((df.cellByName (df.rows.get ⟨i, hi⟩) col).asStr) ≠ "" then
            (df.cellByName (df.rows.get ⟨i, hi⟩) col).asStr
          else (df.cellByName (df.rows.get ⟨i, hi⟩) fallback_col).asStr) := by
  constructor
  · simp [buildItems]
  · intro i hi
    have hrow : df.rows.get? i = some (df.rows.get ⟨i, hi⟩) := List.get?_eq_get hi
    rw [buildItems, List.get?_map, hrow]
    rfl

/-- The spec scenario table (`key`, English, French; the French farewell
cell holds text while the English one is blank). -/
def dfScn : DF :=
  ⟨["key", "English (en)", "French (fr)"],
   [[.s "greeting", .s "Hello", .s "Bonjour"],
    [.s "farewell", .s "", .s "Au revoir"]]⟩

/-- Witness for C5: in the scenario table the French column's second item
keeps its own nonblank cell. -/
theorem C5_item_values_witness :
    (buildItems dfScn 0 "French (fr)" "English (en)").get? 1 =
      some ("farewell", "Au revoir") :=
  ((C5_item_values dfScn 0 "French (fr)" "English (en)").2 1 (by decide)).trans (by decide)

/-- A decomposition exhibiting a parenthesized group of a header: after
`pre` comes `(`, then the nonempty group `g` free of `)`, then `)` and
the rest. -/
def GroupAt (cs pre g : List Char) : Prop :=
  ∃ post, cs = pre ++ '(' :: (g ++ ')' :: post) ∧ g ≠ [] ∧ ')' ∉ g

/-- The spec-side description of "the first parenthesized substring
encountered left to right": `g` is a parenthesized group, and no
parenthesized group starts earlier. -/
def SpecFirstGroup (cs g : List Char) : Prop :=
  ∃ pre, GroupAt cs pre g ∧ ∀ pre2 g2, GroupAt cs pre2 g2 → pre.length ≤ pre2.length

/-- Soundness of `spanToClose`: a successful span decomposes its input at
the first closing parenthesis. -/
theorem spanToClose_sound (cs : List Char) :
    ∀ g, spanToClose cs = some g → ∃ post, cs = g ++ ')' :: post ∧ ')' ∉ g := by
  induction cs with
  | nil => intro g h; exact absurd h (by simp [spanToClose])
  | cons c rest ih =>
    intro g h
    by_cases hc : c = ')'
    · subst hc
      rw [spanToClose, if_pos rfl] at h
      obtain rfl : ([] : List Char) = g := Option.some.inj h
      exact ⟨rest, rfl, by simp⟩
    · rw [spanToClose, if_neg hc] at h
      obtain ⟨g', hg', rfl⟩ := Option.map_eq_some'.mp h
      obtain ⟨post, hrest, hnotin⟩ := ih g' hg'
      refine ⟨post, by rw [hrest]; rfl, ?_⟩
      intro hmem
      rcases List.mem_cons.mp hmem with h1 | h1
      · exact hc h1.symm
      · exact hnotin h1

/-- Completeness of `spanToClose`: it recovers a group placed before the
first closing parenthesis. -/
theorem spanToClose_complete (g : List Char) :
    ∀ post, ')' ∉ g → spanToClose (g ++ ')' :: post) = some g := by
  induction g with
  | nil => intro post _; rw [List.nil_append, spanToClose, if_pos rfl]
  | cons d g' ih =>
    intro post hnotin
    have hd : d ≠ ')' := fun h => hnotin (h ▸ List.mem_cons_self d g')
    have h' : ')' ∉ g' := fun h => hnotin (List.mem_cons_of_mem d h)
    rw [List.cons_append, spanToClose, if_neg hd, ih post h']
    rfl

/-- Soundness of `findGroup`: a found group is a parenthesized group no
other parenthesized group precedes. -/
theorem findGroup_sound (cs : List Char) :
    ∀ g, findGroup cs = some g → SpecFirstGroup cs g := by
  induction cs with
  | nil => intro g h; exact absurd h (by simp [findGroup])
  | cons c rest ih =>
    intro g h
    by_cases hc : c = '('
    · subst hc
      rw [findGroup, if_pos rfl] at h
      cases hspan : spanToClose rest with
      | some g0 =>
        cases g0 with
        | nil =>
          rw [hspan] at h
          have hrec := ih g h
          obtain ⟨pre, hga, hmin⟩ := hrec
          refine ⟨'(' :: pre, ?_, ?_⟩
          · obtain ⟨post, hcs, hne, hnotin⟩ := hga
            exact ⟨post, by rw [hcs]; rfl, hne, hnotin⟩
          · rintro pre2 g2 ⟨post2, hcs2, hne2, hnotin2⟩
            cases pre2 with
            | nil =>
              obtain ⟨rfl⟩ : rest = g2 ++ ')' :: post2 := by
                simpa using congrArg List.tail hcs2
              rw [spanToClose_complete g2 post2 hnotin2] at hspan
              exact absurd (Option.some.inj hspan) hne2
            | cons c2 pre2' =>
              have hcs2' := hcs2
              rw [List.cons_append] at hcs2'
              have htail : rest = pre2' ++ '(' :: (g2 ++ ')' :: post2) :=
                List.tail_eq_of_cons_eq hcs2'
              have := hmin pre2' g2 ⟨post2, htail, hne2, hnotin2⟩
              simpa using Nat.succ_le_succ this
        | cons d ds =>
          rw [hspan] at h
          obtain rfl : d :: ds = g := Option.some.inj h
          obtain ⟨post, hrest, hnotin⟩ := spanToClose_sound rest (d :: ds) hspan
          refine ⟨[], ⟨post, by rw [hrest]; rfl, by simp, hnotin⟩, ?_⟩
          intro pre2 g2 _
          exact Nat.zero_le _
      | none =>
        rw [hspan] at h
        have hrec := ih g h
        obtain ⟨pre, hga, hmin⟩ := hrec
        refine ⟨'(' :: pre, ?_, ?_⟩
        · obtain ⟨post, hcs, hne, hnotin⟩ := hga
          exact ⟨post, by rw [hcs]; rfl, hne, hnotin⟩
        · rintro pre2 g2 ⟨post2, hcs2, hne2, hnotin2⟩
          cases pre2 with
          | nil =>
            obtain ⟨rfl⟩ : rest = g2 ++ ')' :: post2 := by
              simpa using congrArg List.tail hcs2
            rw [spanToClose_complete g2 post2 hnotin2] at hspan
            exact Option.noConfusion hspan
          | cons c2 pre2' =>
            have hcs2' := hcs2
            rw [List.cons_append] at hcs2'
            have htail : rest = pre2' ++ '(' :: (g2 ++ ')' :: post2) :=
              List.tail_eq_of_cons_eq hcs2'
            have := hmin pre2' g2 ⟨post2, htail, hne2, hnotin2⟩
            simpa using Nat.succ_le_succ this
    · rw [findGroup, if_neg hc] at h
      have hrec := ih g h
      obtain ⟨pre, hga, hmin⟩ := hrec
      refine ⟨c :: pre, ?_, ?_⟩
      · obtain ⟨post, hcs, hne, hnotin⟩ := hga
        exact ⟨post, by rw [hcs]; rfl, hne, hnotin⟩
      · rintro pre2 g2 ⟨post2, hcs2, hne2, hnotin2⟩
        cases pre2 with
        | nil =>
          have hhead : c = '(' := by
            simpa using congrArg List.head? hcs2
          exact absurd hhead hc
        | cons c2 pre2' =>
          have hcs2' := hcs2
          rw [List.cons_append] at hcs2'
          have htail : rest = pre2' ++ '(' :: (g2 ++ ')' :: post2) :=
            List.tail_eq_of_cons_eq hcs2'
          have := hmin pre2' g2 ⟨post2, htail, hne2, hnotin2⟩
          simpa using Nat.succ_le_succ this

/-- Completeness of `findGroup`: it returns the leftmost parenthesized
group. -/
theorem findGroup_complete (cs : List Char) :
    ∀ g, SpecFirstGroup cs g → findGroup cs = some g := by
  induction cs with
  | nil =>
    rintro g ⟨pre, ⟨post, hcs, _, _⟩, _⟩
    exact absurd hcs (by simp)
  | cons c rest ih =>
    rintro g ⟨pre, ⟨post, hcs, hne, hnotin⟩, hmin⟩
    cases pre with
    | nil =>
      have hc : c = '(' := by
        simpa using congrArg List.head? hcs
      have hrest : rest = g ++ ')' :: post := by
        simpa using congrArg List.tail hcs
      subst hc
      rw [findGroup, if_pos rfl, hrest, spanToClose_complete g post hnotin]
      cases g with
      | nil => exact absurd rfl hne
      | cons d ds => rfl
    | cons c2 pre' =>
      have hc2 : c = c2 := by
        simpa using congrArg List.head? hcs
      subst hc2
      have htail : rest = pre' ++ '(' :: (g ++ ')' :: post) := by
        have hcs' := hcs
        rw [List.cons_append] at hcs'
        exact List.tail_eq_of_cons_eq hcs'
      have hspec : SpecFirstGroup rest g := by
        refine ⟨pre', ⟨post, htail, hne, hnotin⟩, ?_⟩
        intro pre2 g2 hga2
        obtain ⟨post2, hcs2, hne2, hnotin2⟩ := hga2
        have : GroupAt (c :: rest) (c :: pre2) g2 :=
          ⟨post2, by rw [hcs2]; rfl, hne2, hnotin2⟩
        have hle := hmin (c :: pre2) g2 this
        simpa using hle
      have hfg : findGroup rest = some g := ih g hspec
      by_cases hc : c = '('
      · subst hc
        rw [findGroup, if_pos rfl]
        cases hspan : spanToClose rest with
        | none => exact hfg
        | some g0 =>
          cases g0 with
          | nil => exact hfg
          | cons d ds =>
            obtain ⟨post0, hrest0, hnotin0⟩ := spanToClose_sound rest (d :: ds) hspan
            have hga0 : GroupAt ('(' :: rest) [] (d :: ds) :=
              ⟨post0, by rw [hrest0]; rfl, by simp, hnotin0⟩
            have := hmin [] (d :: ds) hga0
            simp at this
      · rw [findGroup, if_neg hc]
        exact hfg

/-- C6: `parse_language_code` returns the stripped contents of the first
parenthesized substring of a string header when one exists, the stripped
header itself when none does, and for a non-string header the stripped
`str(...)` coercion; it is a total function, so it never fails. -/
theorem C6_resolver_first_group (s : String) :
    (∀ g, SpecFirstGroup s.data g → parse_language_code (.str s) = pyStrip (String.mk g)) ∧
    ((∀ g, ¬ SpecFirstGroup s.data g) → parse_language_code (.str s) = pyStrip s) ∧
    (∀ rep, parse_language_code (.nonStr rep) = pyStrip (pyObjStr (.nonStr rep))) := by
  refine ⟨?_, ?_, fun rep => rfl⟩
  · intro g hg
    have hfg := findGroup_complete s.data g hg
    rw [parse_language_code, hfg]
  · intro hnone
    cases hfg : findGroup s.data with
    | none => rw [parse_language_code, hfg]
    | some g => exact absurd (findGroup_sound s.data g hfg) (hnone g)

/-- Witness for C6 at a header whose group starts at position zero. -/
theorem C6_resolver_witness : parse_language_code (.str "( en )x") = "en" := by
  have hga : GroupAt "( en )x".data [] [' ', 'e', 'n', ' '] :=
    ⟨['x'], by decide, by decide, by decide⟩
  have hsp : SpecFirstGroup "( en )x".data [' ', 'e', 'n', ' '] :=
    ⟨[], hga, fun pre2 g2 _ => Nat.zero_le _⟩
  have h := (C6_resolver_first_group "( en )x").1 [' ', 'e', 'n', ' '] hsp
  exact h.trans (by decide)

/-- C7: a requested platform identifier outside {android, ios, pc} makes
the run fail with the Unsupported platform(s) error before any processing
begins: no effect is performed — in particular the output root is neither
cleared nor created and the input table is never read. -/
theorem C7_unsupported_platform_aborts (input_path output_root parg : String)
    (readResult : Option DF) (p : String)
    (hp : p ∈ platformList parg) (hbad : p ∉ allowedPlatforms) :
    (mainRun input_path output_root parg readResult).effects = [] ∧
    ∃ msgTail, (mainRun input_path output_root parg readResult).errorMsg =
      some ("Unsupported platform(s): " ++ msgTail) := by
  have hinv : p ∈ (platformList parg).filter (fun q => q ∉ allowedPlatforms) := by
    rw [List.mem_filter]
    exact ⟨hp, by simpa using hbad⟩
  have hne : (platformList parg).filter (fun q => q ∉ allowedPlatforms) ≠ [] := by
    intro h
    rw [h] at hinv
    exact absurd hinv (List.not_mem_nil p)
  simp only [mainRun]
  rw [if_pos hne]
  exact ⟨rfl, ⟨_, rfl⟩⟩

/-- Witness for C7 at the spec's `xbox` scenario. -/
theorem C7_unsupported_platform_witness :
    (mainRun "translations.xlsx" "res" "xbox" none).effects = [] ∧
    ∃ msgTail, (mainRun "translations.xlsx" "res" "xbox" none).errorMsg =
      some ("Unsupported platform(s): " ++ msgTail) :=
  C7_unsupported_platform_aborts "translations.xlsx" "res" "xbox" none "xbox"
    (by decide) (by decide)

/-- Concatenation of a list of strings, in order. -/
def joinAll : List String → String
  | [] => ""
  | s :: rest => s ++ joinAll rest

/-- The iOS file is the concatenation of one line per item. -/
theorem iosContent_eq_joinAll (items : List (String × String)) :
    iosContent items = joinAll (items.map (fun it => iosLine it.1 it.2)) := by
  induction items with
  | nil => rfl
  | cons a rest ih =>
    cases a
    simp [iosContent, joinAll, ih]

/-- The PC file is the concatenation of one line per item. -/
theorem pcContent_eq_joinAll (items : List (String × String)) :
    pcContent items = joinAll (items.map (fun it => pcLine it.1 it.2)) := by
  induction items with
  | nil => rfl
  | cons a rest ih =>
    cases a
    simp [pcContent, joinAll, ih]

/-- The Android element sequence is the concatenation of one element per
item. -/
theorem androidBody_eq_joinAll (items : List (String × String)) :
    androidBody items = joinAll (items.map (fun it => androidElem it.1 it.2)) := by
  induction items with
  | nil => rfl
  | cons a rest ih =>
    cases a
    simp [androidBody, joinAll, ih]

/-- C8: every emitter writes exactly one entry per item — each file is the
concatenation, in order, of one entry per (key, value) pair — and an
empty value is written as an empty string, never omitted: iOS emits
`"KEY" = "";`, PC emits `KEY = "";`, Android emits a `<string>` element
with empty text (in self-closing form); and the item list handed to the
emitters holds exactly one item per table row, keyed by the table's
keys. -/
theorem C8_empty_value_entries :
    (∀ items : List (String × String),
        iosContent items = joinAll (items.map (fun it => iosLine it.1 it.2)) ∧
        pcContent items = joinAll (items.map (fun it => pcLine it.1 it.2)) ∧
        androidBody items = joinAll (items.map (fun it => androidElem it.1 it.2))) ∧
    (∀ k, iosLine k "" = "\"" ++ iosEscape k ++ "\" = \"\";\n") ∧
    (∀ k, pcLine k "" = k ++ " = \"\";\n") ∧
    (∀ k, androidElem k "" =
        "    <string name=\"" ++ String.mk (minidomWriteData k.data) ++ "\"/>\n") ∧
    (∀ df : DF, ∀ ki : Nat, ∀ col fb : String,
        (buildItems df ki col fb).length = df.rows.length ∧
        (buildItems df ki col fb).map Prod.fst =
          df.rows.map (fun row => (row.getD ki Cell.nan).asStr)) := by
  refine ⟨fun items => ⟨iosContent_eq_joinAll items, pcContent_eq_joinAll items,
    androidBody_eq_joinAll items⟩, ?_, ?_, ?_, ?_⟩
  · intro k
    simp only [iosLine]
    rw [show iosEscape "" = "" by decide, String.append_empty, String.append_assoc]
    exact congrArg (fun t => "\"" ++ iosEscape k ++ t)
      (show ("\" = \"" ++ "\";\n" : String) = "\" = \"\";\n" by decide)
  · intro k
    simp only [pcLine]
    rw [String.append_empty, String.append_assoc]
    exact congrArg (fun t => k ++ t)
      (show (" = \"" ++ "\";\n" : String) = " = \"\";\n" by decide)
  · intro k
    simp only [androidElem]
    rw [if_pos (by decide : escape_android_text "" = ""), String.append_assoc]
    exact congrArg (fun t => "    <string name=\"" ++ String.mk (minidomWriteData k.data) ++ t)
      (show ("\"" ++ "/>\n" : String) = "\"/>\n" by decide)
  · intro df ki col fb
    constructor
    · simp [buildItems]
    · simp [buildItems, rowItem]

/-- C9: `convert_table` never mutates the frame the caller passes in: the
key coercion and the NaN fill are performed on the fresh object allocated
by `df.copy()`, so after the call — on every path, including validation
failures — the caller's heap slot still holds the original frame; and the
heap-level run returns exactly what the pure `convert_table` computes on
the caller's frame. -/
theorem C9_no_caller_mutation (σ : List DF) (r : Nat) (root : String)
    (platforms : List String) (hr : r < σ.length) :
    ((convert_table_heap σ r root platforms).2)[r]? = σ[r]? ∧
    (convert_table_heap σ r root platforms).1 =
      convert_table (σ.getD r dfEmpty) root platforms := by
  cases hki : (σ.getD r dfEmpty).cols.findIdx? (fun c => c = "key") with
  | none =>
    have heap_eq : convert_table_heap σ r root platforms =
        (([], some (.valueError "Input spreadsheet must contain a 'key' column")), σ) := by
      simp only [convert_table_heap, hki]
    have pure_eq : convert_table (σ.getD r dfEmpty) root platforms =
        ([], some (.valueError "Input spreadsheet must contain a 'key' column")) := by
      simp only [convert_table, hki]
    rw [heap_eq, pure_eq]
    exact ⟨rfl, rfl⟩
  | some ki =>
    have heap_eq : convert_table_heap σ r root platforms =
        (convert_table_core
            ((((σ ++ [σ.getD r dfEmpty]).set σ.length
                (astypeStep ((σ ++ [σ.getD r dfEmpty]).getD σ.length dfEmpty) ki)).set σ.length
                (fillnaStep (((σ ++ [σ.getD r dfEmpty]).set σ.length
                  (astypeStep ((σ ++ [σ.getD r dfEmpty]).getD σ.length dfEmpty) ki)).getD σ.length
                  dfEmpty))).getD σ.length dfEmpty)
            ki root platforms,
          ((σ ++ [σ.getD r dfEmpty]).set σ.length
              (astypeStep ((σ ++ [σ.getD r dfEmpty]).getD σ.length dfEmpty) ki)).set σ.length
            (fillnaStep (((σ ++ [σ.getD r dfEmpty]).set σ.length
              (astypeStep ((σ ++ [σ.getD r dfEmpty]).getD σ.length dfEmpty) ki)).getD σ.length
              dfEmpty))) := by
      simp only [convert_table_heap, hki]
    have pure_eq : convert_table (σ.getD r dfEmpty) root platforms =
        convert_table_core (normalizeDF (σ.getD r dfEmpty) ki) ki root platforms := by
      simp only [convert_table, hki]
    have h1 : (σ ++ [σ.getD r dfEmpty]).getD σ.length dfEmpty = σ.getD r dfEmpty := by
      rw [List.getD_eq_getElem?_getD, List.getElem?_concat_length]
      rfl
    rw [heap_eq, pure_eq, h1]
    have h2 : ((σ ++ [σ.getD r dfEmpty]).set σ.length
          (astypeStep (σ.getD r dfEmpty) ki)).getD σ.length dfEmpty =
        astypeStep (σ.getD r dfEmpty) ki := by
      rw [List.getD_eq_getElem?_getD, List.getElem?_set_self (by simp)]
      rfl
    rw [h2]
    have h3 : (((σ ++ [σ.getD r dfEmpty]).set σ.length
          (astypeStep (σ.getD r dfEmpty) ki)).set σ.length
          (fillnaStep (astypeStep (σ.getD r dfEmpty) ki))).getD σ.length dfEmpty =
        fillnaStep (astypeStep (σ.getD r dfEmpty) ki) := by
      rw [List.getD_eq_getElem?_getD, List.getElem?_set_self (by simp)]
      rfl
    rw [h3]
    have hne : σ.length ≠ r := (Nat.ne_of_lt hr).symm
    constructor
    · rw [List.getElem?_set_ne hne, List.getElem?_set_ne hne, List.getElem?_append_left hr]
    · rfl

/-- Witness for C9: a one-frame heap is unchanged at the caller's slot. -/
theorem C9_no_caller_mutation_witness :
    ((convert_table_heap [dfScn] 0 "res" ["pc"]).2)[0]? = [dfScn][0]? ∧
    (convert_table_heap [dfScn] 0 "res" ["pc"]).1 =
      convert_table ([dfScn].getD 0 dfEmpty) "res" ["pc"] :=
  C9_no_caller_mutation [dfScn] 0 "res" ["pc"] (by decide)

/-- Left cancellation for string concatenation. -/
theorem strAppendLeftCancel {a b c : String} (h : a ++ b = a ++ c) : b = c := by
  have hd := congrArg String.data h
  rw [String.data_append, String.data_append] at hd
  exact String.ext (List.append_cancel_left hd)

/-- Right cancellation for string concatenation. -/
theorem strAppendRightCancel {a b c : String} (h : a ++ c = b ++ c) : a = b := by
  have hd := congrArg String.data h
  rw [String.data_append, String.data_append] at hd
  exact String.ext (List.append_cancel_right hd)

/-- The emitters' output paths are injective in (platform, code): distinct
known platforms never share a path, and within one platform distinct codes
never do. -/
theorem pathFor_inj (q q' root c c' : String) (hq : q ∈ allowedPlatforms)
    (hq' : q' ∈ allowedPlatforms) (h : pathFor q root c = pathFor q' root c') :
    q = q' ∧ c = c' := by
  simp only [allowedPlatforms, List.mem_cons, List.not_mem_nil, or_false] at hq hq'
  rcases hq with rfl | rfl | rfl <;> rcases hq' with rfl | rfl | rfl <;>
    simp only [pathFor, String.reduceEq, reduceIte, List.cons.injEq, and_true,
      true_and] at h <;>
    first
    | exact ⟨rfl, strAppendLeftCancel h⟩
    | exact ⟨rfl, strAppendRightCancel h⟩
    | exact h.2.elim
    | simp at h

/-- After no write at all, a path holds nothing. -/
theorem fsAfter_not_mem_none (ws : List Write) (p : List String)
    (h : ∀ w ∈ ws, w.path ≠ p) : fsAfter ws p = none := by
  unfold fsAfter
  apply Option.map_eq_none'.mpr
  rw [List.find?_eq_none]
  intro w hw
  simpa using h w (List.mem_reverse.mp hw)

/-- Writes later in the sequence win: when the right part never writes the
path, the left part decides it. -/
theorem fsAfter_append_right_none (ws1 ws2 : List Write) (p : List String)
    (h : fsAfter ws2 p = none) : fsAfter (ws1 ++ ws2) p = fsAfter ws1 p := by
  have hf : ws2.reverse.find? (fun w => w.path = p) = none := by
    unfold fsAfter at h
    exact Option.map_eq_none'.mp h
  unfold fsAfter
  rw [List.reverse_append, List.find?_append, hf]
  rfl

/-- Writes later in the sequence win: a hit in the right part is the final
content. -/
theorem fsAfter_append_right_some (ws1 ws2 : List Write) (p : List String) (c : String)
    (h : fsAfter ws2 p = some c) : fsAfter (ws1 ++ ws2) p = some c := by
  obtain ⟨w, hw, hwc⟩ := Option.map_eq_some'.mp h
  unfold fsAfter
  rw [List.reverse_append, List.find?_append, hw]
  exact congrArg some hwc

/-- A single write decides its own path. -/
theorem fsAfter_singleton (w : Write) (p : List String) :
    fsAfter [w] p = if w.path = p then some w.content else none := by
  by_cases hp : w.path = p
  · rw [if_pos hp]
    simp [fsAfter, List.find?, hp]
  · rw [if_neg hp]
    simp [fsAfter, List.find?, hp]

/-- Membership in a conditional singleton list. -/
theorem mem_ite_single {α : Type} (c : Prop) [Decidable c] (x w : α)
    (h : w ∈ (if c then [x] else ([] : List α))) : w = x := by
  by_cases hc : c
  · rw [if_pos hc] at h
    simpa using h
  · rw [if_neg hc] at h
    simp at h

/-- Every write of `platformWrites` goes to the path of one of the known
platforms for this language code. -/
theorem platformWrites_path (platforms : List String) (code : String)
    (items : List (String × String)) (root : String) (w : Write)
    (hw : w ∈ platformWrites platforms code items root) :
    ∃ q, q ∈ allowedPlatforms ∧ w.path = pathFor q root code := by
  unfold platformWrites at hw
  rcases List.mem_append.mp hw with h1 | h2
  · rcases List.mem_append.mp h1 with ha | hb
    · exact ⟨"android", by decide, by rw [mem_ite_single _ _ _ ha]⟩
    · exact ⟨"ios", by decide, by rw [mem_ite_single _ _ _ hb]⟩
  · exact ⟨"pc", by decide, by rw [mem_ite_single _ _ _ h2]⟩

/-- A conditional single write for a different known platform never hits
the target path. -/
theorem fsAfter_ite_other_none (c : Prop) [Decidable c] (q' q root code : String)
    (content : String) (hq' : q' ∈ allowedPlatforms) (hq : q ∈ allowedPlatforms)
    (hne : q' ≠ q) :
    fsAfter (if c then [⟨pathFor q' root code, content⟩] else []) (pathFor q root code) =
      none := by
  by_cases hc : c
  · rw [if_pos hc, fsAfter_singleton]
    rw [if_neg]
    intro hpath
    exact hne (pathFor_inj q' q root code code hq' hq hpath).1
  · rw [if_neg hc]
    rfl

/-- The requested platform's write inside one column's `platformWrites`
batch decides the platform's path for that column's code. -/
theorem fsAfter_platformWrites (platforms : List String) (code : String)
    (items : List (String × String)) (root q : String)
    (hq : q ∈ allowedPlatforms) (hqp : q ∈ platforms) :
    fsAfter (platformWrites platforms code items root) (pathFor q root code) =
      some (contentFor q items) := by
  unfold platformWrites
  have hself : fsAfter [(⟨pathFor q root code, contentFor q items⟩ : Write)]
      (pathFor q root code) = some (contentFor q items) := by
    rw [fsAfter_singleton, if_pos rfl]
  have hqcase : q = "android" ∨ q = "ios" ∨ q = "pc" := by
    simpa [allowedPlatforms] using hq
  rcases hqcase with rfl | rfl | rfl
  · have hB := fsAfter_ite_other_none ("ios" ∈ platforms) "ios" "android" root code
      (contentFor "ios" items) (by decide) (by decide) (by decide)
    have hC := fsAfter_ite_other_none ("pc" ∈ platforms) "pc" "android" root code
      (contentFor "pc" items) (by decide) (by decide) (by decide)
    rw [fsAfter_append_right_none _ _ _ hC, fsAfter_append_right_none _ _ _ hB,
      if_pos hqp]
    exact hself
  · have hC := fsAfter_ite_other_none ("pc" ∈ platforms) "pc" "ios" root code
      (contentFor "pc" items) (by decide) (by decide) (by decide)
    rw [fsAfter_append_right_none _ _ _ hC]
    apply fsAfter_append_right_some
    rw [if_pos hqp]
    exact hself
  · apply fsAfter_append_right_some
    rw [if_pos hqp]
    exact hself

/-- C10: when a language column is the last (in original column order)
among the columns resolving to its code, the file each requested emitter
leaves at that code's path after the whole run is exactly the
serialization of that column's item list — each column triggers its own
write to the identical path, and the later write silently overwrites the
earlier file.  In particular, with two columns resolving to the same code
the output file holds the second column's items. -/
theorem C10_same_code_last_column_wins (df : DF) (root : String) (platforms : List String)
    (ki : Nat) (hki : df.cols.findIdx? (fun c => c = "key") = some ki)
    (fb : String)
    (hfb : determine_fallback_column (languageColumns df.cols) = some fb)
    (hnodup : dupFlagged (keyStrings (normalizeDF df ki) ki) = [])
    (q : String) (hq : q ∈ allowedPlatforms) (hqp : q ∈ platforms)
    (j : Nat) (hj : j < (languageColumns df.cols).length)
    (hlast : ∀ m (hm : m < (languageColumns df.cols).length), j < m →
        ((languageColumns df.cols).get ⟨m, hm⟩).2 ≠
          ((languageColumns df.cols).get ⟨j, hj⟩).2) :
    fsAfter (convert_table df root platforms).1
        (pathFor q root ((languageColumns df.cols).get ⟨j, hj⟩).2) =
      some (contentFor q
        (buildItems (normalizeDF df ki) ki ((languageColumns df.cols).get ⟨j, hj⟩).1 fb)) := by
  have hlc_ne : ¬ (languageColumns df.cols = []) := by
    intro hnil
    rw [hnil] at hj
    exact absurd hj (by simp)
  have hcols : languageColumns (normalizeDF df ki).cols = languageColumns df.cols := rfl
  have hct : convert_table df root platforms =
      ((languageColumns df.cols).flatMap
        (fun p => platformWrites platforms p.2
          (buildItems (normalizeDF df ki) ki p.1 fb) root), none) := by
    unfold convert_table
    rw [hki]
    show convert_table_core (normalizeDF df ki) ki root platforms = _
    simp only [convert_table_core]
    rw [if_neg (by simp [hnodup]), hcols, if_neg hlc_ne, hfb]
  rw [hct]
  have hsplit : (languageColumns df.cols).flatMap
      (fun p => platformWrites platforms p.2
        (buildItems (normalizeDF df ki) ki p.1 fb) root) =
      ((languageColumns df.cols).take j).flatMap
        (fun p => platformWrites platforms p.2
          (buildItems (normalizeDF df ki) ki p.1 fb) root) ++
      (platformWrites platforms ((languageColumns df.cols).get ⟨j, hj⟩).2
        (buildItems (normalizeDF df ki) ki ((languageColumns df.cols).get ⟨j, hj⟩).1 fb)
        root ++
       ((languageColumns df.cols).drop (j + 1)).flatMap
        (fun p => platformWrites platforms p.2
          (buildItems (normalizeDF df ki) ki p.1 fb) root)) := by
    conv_lhs =>
      rw [show languageColumns df.cols =
        (languageColumns df.cols).take j ++
          ((languageColumns df.cols).get ⟨j, hj⟩ :: (languageColumns df.cols).drop (j + 1)) from by
        rw [List.get_cons_drop]
        exact (List.take_append_drop j (languageColumns df.cols)).symm]
    rw [List.flatMap_append, List.flatMap_cons]
  rw [hsplit]
  have hdrop_none : fsAfter
      (((languageColumns df.cols).drop (j + 1)).flatMap
        (fun p => platformWrites platforms p.2
          (buildItems (normalizeDF df ki) ki p.1 fb) root))
      (pathFor q root ((languageColumns df.cols).get ⟨j, hj⟩).2) = none := by
    apply fsAfter_not_mem_none
    intro w hw
    obtain ⟨p', hp'mem, hp'w⟩ := List.mem_flatMap.mp hw
    obtain ⟨q', hq'a, hq'path⟩ := platformWrites_path _ _ _ _ _ hp'w
    intro hpath
    rw [hq'path] at hpath
    obtain ⟨_, hcc⟩ := pathFor_inj q' q root p'.2
      ((languageColumns df.cols).get ⟨j, hj⟩).2 hq'a hq hpath
    obtain ⟨⟨i, hi⟩, hget⟩ := List.mem_iff_get.mp hp'mem
    have hidx : j + 1 + i < (languageColumns df.cols).length := by
      have hi' := hi
      rw [List.length_drop] at hi'
      omega
    have hgetL : (languageColumns df.cols).get ⟨j + 1 + i, hidx⟩ = p' := by
      rw [List.get_drop (languageColumns df.cols) hidx]
      exact hget
    have hne := hlast (j + 1 + i) hidx (by omega)
    rw [hgetL] at hne
    exact hne hcc
  apply fsAfter_append_right_some
  rw [fsAfter_append_right_none _ _ _ hdrop_none]
  exact fsAfter_platformWrites platforms _ _ root q hq hqp

/-- A table with two columns both resolving to code `en`. -/
def dfTwoEn : DF :=
  ⟨["key", "A (en)", "B (en)"],
   [[.s "k", .s "va", .s "vb"]]⟩

/-- Witness for C10: with two `en` columns and the PC emitter, the final
`en.ini` holds the second column's serialization. -/
theorem C10_same_code_witness :
    fsAfter (convert_table dfTwoEn "res" ["pc"]).1
        (pathFor "pc" "res" ((languageColumns dfTwoEn.cols).get ⟨1, by decide⟩).2) =
      some (contentFor "pc"
        (buildItems (normalizeDF dfTwoEn 0) 0
          ((languageColumns dfTwoEn.cols).get ⟨1, by decide⟩).1 "A (en)")) :=
  C10_same_code_last_column_wins dfTwoEn "res" ["pc"] 0 (by decide) "A (en)" (by decide)
    (by decide) "pc" (by decide) (by decide) 1 (by decide) (by decide)
